import Mathlib

/-!
# Verification of the Rectif perspective-correction core

Shallow embedding of the geometric/enhancement pipeline of the
`rectify_gui` package (files `utils_geom.py`, `image_ops.py`) and proofs
of the specification's testable properties about it.

Point coordinates are embedded as integers (`ℤ`): the Python code stores
them as float32, which represents the integer inputs relevant here exactly,
and all the arithmetic performed on them (sums, differences, squares) is
exact on that range.  `int(np.sqrt n)` on a nonnegative integer is embedded
as `Nat.sqrt`, the truncated integer square root.
-/

namespace Rectif

/-- A 2D point, as one row of the `(4, 2)` float32 arrays of
`utils_geom.py` (integer-valued coordinates, exactly representable). -/
structure Pt where
  x : ℤ
  y : ℤ
deriving DecidableEq, Repr

instance : Inhabited Pt := ⟨⟨0, 0⟩⟩

/-- `pts.sum(axis=1)` applied to one point: `x + y`. -/
def sumv (p : Pt) : ℤ := p.x + p.y

/-- `np.diff(pts, axis=1)` applied to one point: the difference of the two
coordinates in array order, i.e. `y - x` (NOT `x - y`). -/
def diffv (p : Pt) : ℤ := p.y - p.x

/-- The quantity `x - y` used by the specification's description of
`order_points` (the code itself computes `diffv = y - x`). -/
def diffv_spec (p : Pt) : ℤ := p.x - p.y

/-- `np.argmin` on a vector of values: index of the first occurrence of the
minimum, `none` on an empty vector (numpy raises `ValueError` there). -/
def argminList : List ℤ → Option ℕ
  | [] => none
  | x :: xs =>
    match argminList xs with
    | none => some 0
    | some j => if x ≤ xs.getD j 0 then some 0 else some (j + 1)

/-- `np.argmax` on a vector of values: index of the first occurrence of the
maximum, `none` on an empty vector. -/
def argmaxList : List ℤ → Option ℕ
  | [] => none
  | x :: xs =>
    match argmaxList xs with
    | none => some 0
    | some j => if xs.getD j 0 ≤ x then some 0 else some (j + 1)

/-- Four points in canonical order top-left, top-right, bottom-right,
bottom-left — a `(4, 2)` array. -/
structure Quad where
  p0 : Pt
  p1 : Pt
  p2 : Pt
  p3 : Pt
deriving DecidableEq, Repr

instance : Inhabited Quad := ⟨⟨default, default, default, default⟩⟩

/-- The four rows of a quad, in order. -/
def Quad.toList (q : Quad) : List Pt := [q.p0, q.p1, q.p2, q.p3]

/-- `order_points` (utils_geom.py lines 7–24) over an input of any length:
the code performs no length validation, so any nonempty `(n, 2)` array
yields a `(4, 2)` result built from `argmin`/`argmax` of the row sums and
row differences; an empty array makes `np.argmin` raise. -/
def order_points_any (pts : List Pt) : Option Quad :=
  match argminList (pts.map sumv), argmaxList (pts.map sumv),
        argminList (pts.map diffv), argmaxList (pts.map diffv) with
  | some i0, some i2, some i1, some i3 =>
      some ⟨pts.getD i0 default, pts.getD i1 default,
            pts.getD i2 default, pts.getD i3 default⟩
  | _, _, _, _ => none

/-- `order_points` on the intended `(4, 2)` input. -/
def order_points (q : Quad) : Quad :=
  (order_points_any q.toList).getD default

/-- A variant of `order_points` written from the SPEC's words rather than
the code, for comparison: "compute per-point diff = x − y; top-right =
point with minimum diff; bottom-left = point with maximum diff". -/
def order_points_spec (q : Quad) : Quad :=
  match argminList (q.toList.map sumv), argmaxList (q.toList.map sumv),
        argminList (q.toList.map diffv_spec), argmaxList (q.toList.map diffv_spec) with
  | some i0, some i2, some i1, some i3 =>
      ⟨q.toList.getD i0 default, q.toList.getD i1 default,
       q.toList.getD i2 default, q.toList.getD i3 default⟩
  | _, _, _, _ => default

/-- `p` is the unique minimizer of `f` among the points of `l` (every other
point of `l` has a strictly larger `f`-value). -/
def strictMinAt (f : Pt → ℤ) (l : List Pt) (p : Pt) : Prop :=
  p ∈ l ∧ ∀ q ∈ l, q ≠ p → f p < f q

/-- `p` is the unique maximizer of `f` among the points of `l`. -/
def strictMaxAt (f : Pt → ℤ) (l : List Pt) (p : Pt) : Prop :=
  p ∈ l ∧ ∀ q ∈ l, q ≠ p → f q < f p

instance (f : Pt → ℤ) (l : List Pt) (p : Pt) : Decidable (strictMinAt f l p) := by
  unfold strictMinAt; infer_instance

instance (f : Pt → ℤ) (l : List Pt) (p : Pt) : Decidable (strictMaxAt f l p) := by
  unfold strictMaxAt; infer_instance

/-! ## four_point_transform and warp_perspective (dimension computation) -/

/-- Python's `int(·)` on an exact rational: truncation toward zero. -/
def pyInt (q : ℚ) : ℤ := if q < 0 then -⌊-q⌋ else ⌊q⌋

/-- The squared Euclidean distance between two points, e.g.
`((br[0]-bl[0])**2) + ((br[1]-bl[1])**2)` in `four_point_transform`. -/
def sqdist (a b : Pt) : ℤ := (a.x - b.x) ^ 2 + (a.y - b.y) ^ 2

/-- `int(np.sqrt n)` for a nonnegative integer `n`: the truncated integer
square root (float32 `np.sqrt` is exact enough on the small integer values
considered here for the truncation to agree with `Nat.sqrt`). -/
def isqrtZ (n : ℤ) : ℤ := (Nat.sqrt n.toNat : ℤ)

/-- `four_point_transform` (utils_geom.py lines 27–61): orders the points,
computes `max_width`/`max_height` as the truncated larger edge lengths, and
returns the destination rectangle corners together with the ordered
points. -/
def four_point_transform (pts : Quad) : Quad × Quad :=
  let r := order_points pts
  let max_width := max (isqrtZ (sqdist r.p2 r.p3)) (isqrtZ (sqdist r.p1 r.p0))
  let max_height := max (isqrtZ (sqdist r.p1 r.p2)) (isqrtZ (sqdist r.p0 r.p3))
  (⟨⟨0, 0⟩, ⟨max_width - 1, 0⟩, ⟨max_width - 1, max_height - 1⟩, ⟨0, max_height - 1⟩⟩, r)

/-- The output size `(w, h)` computed by `warp_perspective`
(image_ops.py lines 72–90): `w = int(dst[2, 0]) + 1`, `h = int(dst[2, 1]) + 1`.
`cv2.warpPerspective` is then asked for a buffer of exactly this size. -/
def warp_output_size (pts : Quad) : ℤ × ℤ :=
  let dst := (four_point_transform pts).1
  (dst.p2.x + 1, dst.p2.y + 1)

/-! ## clamp_size (image_ops.py lines 130–160) -/

/-- Outcome of `clamp_size`: either a `cv2.resize` to explicit dimensions
(`cubic = true` for the upscale branch's `INTER_CUBIC`, `false` for the
downscale branch's `INTER_AREA`), or the very same input buffer returned
unchanged. -/
inductive ClampResult
  | resized (h w : ℕ) (cubic : Bool)
  | unchanged
deriving DecidableEq, Repr

/-- `clamp_size` on an image of dimensions `h × w` (only the dimensions
matter to it; the pixel content is passed through `cv2.resize`). -/
def clamp_size (h w : ℕ) (ref_max_dim : ℕ)
    (max_scale_factor min_scale_factor : ℚ) : ClampResult :=
  let current_max : ℕ := max h w
  let max_allowed : ℤ := pyInt ((ref_max_dim : ℚ) * max_scale_factor)
  let min_allowed : ℤ := pyInt ((ref_max_dim : ℚ) * min_scale_factor)
  if max_allowed < (current_max : ℤ) then
    let scale : ℚ := (max_allowed : ℚ) / (current_max : ℚ)
    .resized (pyInt ((h : ℚ) * scale)).toNat (pyInt ((w : ℚ) * scale)).toNat false
  else if (current_max : ℤ) < min_allowed then
    let scale : ℚ := (min_allowed : ℚ) / (current_max : ℚ)
    .resized (pyInt ((h : ℚ) * scale)).toNat (pyInt ((w : ℚ) * scale)).toNat true
  else .unchanged

/-! ## auto_detect_corners (image_ops.py lines 18–69)

The OpenCV front half (resize, grayscale, blur, Canny, dilate,
findContours, approxPolyDP) is not re-implemented: the candidate loop is
embedded over the abstract list of contour candidates it receives, each
carrying its area and its simplified polygon (already rescaled to original
coordinates, as done by `pts /= scale`). -/

/-- One contour candidate: `cv2.contourArea(cnt)` and the vertices of
`cv2.approxPolyDP(cnt, 0.02 * peri, True)`. -/
structure Cand where
  area : ℚ
  approx : List Pt
deriving DecidableEq, Repr

/-- `approx.reshape(4, 2)`: succeeds exactly when the simplified polygon
has 4 vertices. -/
def quadOfList (l : List Pt) : Option Quad :=
  if l.length = 4 then
    some ⟨l.getD 0 default, l.getD 1 default, l.getD 2 default, l.getD 3 default⟩
  else none

/-- The `for cnt in contours:` loop of `auto_detect_corners`: skip a
candidate whose area is below the threshold, accept the first whose
simplified polygon has exactly 4 vertices (returning its ordered corners),
otherwise keep scanning. -/
def detect_loop (thresh : ℚ) : List Cand → Option Quad
  | [] => none
  | c :: rest =>
    if c.area < thresh then detect_loop thresh rest
    else
      match quadOfList c.approx with
      | some q => some (order_points q)
      | none => detect_loop thresh rest

/-- `auto_detect_corners` for an `h × w` image whose (possibly downscaled)
working copy is `sh × sw`: run the candidate loop with area threshold
`min_area_frac * sh * sw` (parameter `min_area_ratio` in the source); on
failure return the full-image corners
`(0,0), (w-1,0), (w-1,h-1), (0,h-1)` and `success = false`. -/
def auto_detect_corners (h w : ℕ) (min_area_frac : ℚ) (sh sw : ℕ)
    (cands : List Cand) : Quad × Bool :=
  match detect_loop (min_area_frac * (sh : ℚ) * (sw : ℚ)) cands with
  | some q => (q, true)
  | none =>
      (⟨⟨0, 0⟩, ⟨(w : ℤ) - 1, 0⟩, ⟨(w : ℤ) - 1, (h : ℤ) - 1⟩, ⟨0, (h : ℤ) - 1⟩⟩, false)

/-! ## Pixel-level model for apply_sharpen (image_ops.py lines 120–127)

An image is a family of 8-bit pixel samples indexed by an arbitrary type
`I` (position × channel).  `cv2.GaussianBlur` is an opaque
shape-preserving transform, taken as a parameter. -/

/-- `cv2.addWeighted`-style saturation to `uint8`: round, then clamp to
`[0, 255]`.  (OpenCV rounds half to even; no claim here depends on tie
behavior, and `round` agrees with it on all non-tie values.) -/
def saturate_u8 (q : ℚ) : Fin 256 :=
  ⟨(min (max (round q) 0) 255).toNat, by
    have h : min (max (round q) 0) 255 ≤ 255 := min_le_right _ _
    omega⟩

/-- `cv2.addWeighted(src1, alpha, src2, beta, gamma)`: per-sample
`saturate(alpha * src1 + beta * src2 + gamma)`. -/
def addWeighted {I : Type} (src1 : I → Fin 256) (alpha : ℚ)
    (src2 : I → Fin 256) (beta : ℚ) (gamma : ℚ) : I → Fin 256 :=
  fun i => saturate_u8 (alpha * ((src1 i : ℕ) : ℚ) + beta * ((src2 i : ℕ) : ℚ) + gamma)

/-- `apply_sharpen`: unsharp mask.  `gaussian_blur` stands for
`cv2.GaussianBlur(img, (0, 0), sigma)`.  The trailing
`np.clip(..., 0, 255).astype(np.uint8)` is a no-op on the already
saturated `uint8` result of `addWeighted` and adds nothing here. -/
def apply_sharpen {I : Type} (gaussian_blur : (I → Fin 256) → ℚ → (I → Fin 256))
    (img : I → Fin 256) (amount sigma : ℚ) : I → Fin 256 :=
  let blurred := gaussian_blur img sigma
  addWeighted img amount blurred (1 - amount) 0

/-! ## full_pipeline (image_ops.py lines 163–202)

The pipeline's control flow over an abstract image type `α`, with the four
leaf stage operations (all implemented via OpenCV on pixel buffers) taken
as an explicit record of operations. -/

/-- The leaf image operations used by `full_pipeline`.  `maxDim` is
`max(img.shape[:2])`. -/
structure ImageOps (α : Type) where
  warp_perspective : α → Quad → α
  apply_denoise : α → ℚ → α
  apply_clahe : α → ℚ → α
  apply_sharpen : α → ℚ → α
  clamp_size : α → ℕ → ℚ → ℚ → α
  maxDim : α → ℕ

/-- `full_pipeline`: warp, then the four independently gated stages in
fixed order.  `ref := ref_max_dim or max(img.shape[:2])` — Python's `or`
also falls back when `ref_max_dim == 0`. -/
def full_pipeline {α : Type} (ops : ImageOps α) (img : α) (pts : Quad)
    (denoise : Bool) (denoise_strength : ℚ)
    (clahe : Bool) (clahe_clip : ℚ)
    (sharpen : Bool) (sharpen_amount : ℚ)
    (clamp_enabled : Bool) (ref_max_dim : Option ℕ)
    (max_scale_factor min_scale_factor : ℚ) : α :=
  let result := ops.warp_perspective img pts
  let ref : ℕ := match ref_max_dim with
    | some n => if n = 0 then ops.maxDim img else n
    | none => ops.maxDim img
  let result := if denoise then ops.apply_denoise result denoise_strength else result
  let result := if clahe then ops.apply_clahe result clahe_clip else result
  let result := if sharpen then ops.apply_sharpen result sharpen_amount else result
  let result := if clamp_enabled then
      ops.clamp_size result ref max_scale_factor min_scale_factor
    else result
  result

/-! ## Helper lemmas -/

/-- `np.argmin` returns `none` exactly on the empty vector. -/
theorem argminList_eq_none {v : List ℤ} : argminList v = none ↔ v = [] := by
  cases v with
  | nil => simp [argminList]
  | cons x xs =>
    have hsome : ∃ k, argminList (x :: xs) = some k := by
      simp only [argminList]
      cases h : argminList xs with
      | none => exact ⟨0, rfl⟩
      | some j =>
        by_cases hle : x ≤ xs.getD j 0
        · refine ⟨0, ?_⟩
          show (if x ≤ xs.getD j 0 then (some 0 : Option ℕ) else some (j + 1)) = some 0
          rw [if_pos hle]
        · refine ⟨j + 1, ?_⟩
          show (if x ≤ xs.getD j 0 then (some 0 : Option ℕ) else some (j + 1)) = some (j + 1)
          rw [if_neg hle]
    obtain ⟨k, hk⟩ := hsome
    simp [hk]

/-- `np.argmax` returns `none` exactly on the empty vector. -/
theorem argmaxList_eq_none {v : List ℤ} : argmaxList v = none ↔ v = [] := by
  cases v with
  | nil => simp [argmaxList]
  | cons x xs =>
    have hsome : ∃ k, argmaxList (x :: xs) = some k := by
      simp only [argmaxList]
      cases h : argmaxList xs with
      | none => exact ⟨0, rfl⟩
      | some j =>
        by_cases hle : xs.getD j 0 ≤ x
        · refine ⟨0, ?_⟩
          show (if xs.getD j 0 ≤ x then (some 0 : Option ℕ) else some (j + 1)) = some 0
          rw [if_pos hle]
        · refine ⟨j + 1, ?_⟩
          show (if xs.getD j 0 ≤ x then (some 0 : Option ℕ) else some (j + 1)) = some (j + 1)
          rw [if_neg hle]
    obtain ⟨k, hk⟩ := hsome
    simp [hk]

theorem argminList_isSome {v : List ℤ} (h : v ≠ []) : ∃ j, argminList v = some j := by
  cases hv : argminList v with
  | none => exact absurd (argminList_eq_none.mp hv) h
  | some j => exact ⟨j, rfl⟩

theorem argmaxList_isSome {v : List ℤ} (h : v ≠ []) : ∃ j, argmaxList v = some j := by
  cases hv : argmaxList v with
  | none => exact absurd (argmaxList_eq_none.mp hv) h
  | some j => exact ⟨j, rfl⟩

/-- The index returned by `np.argmin` is in range and indexes a minimal
value of the vector. -/
theorem argminList_spec :
    ∀ (v : List ℤ) (j : ℕ), argminList v = some j →
      j < v.length ∧ ∀ x ∈ v, v.getD j 0 ≤ x := by
  intro v
  induction v with
  | nil => intro j h; simp [argminList] at h
  | cons x xs ih =>
    intro j h
    simp only [argminList] at h
    cases hxs : argminList xs with
    | none =>
      rw [hxs] at h
      obtain rfl : 0 = j := by simpa using h
      have hnil : xs = [] := argminList_eq_none.mp hxs
      subst hnil
      refine ⟨by simp, ?_⟩
      intro y hy
      simp only [List.mem_singleton] at hy
      simp [hy]
    | some j' =>
      rw [hxs] at h
      change (if x ≤ xs.getD j' 0 then some 0 else some (j' + 1)) = some j at h
      obtain ⟨hlen, hmin⟩ := ih j' hxs
      by_cases hle : x ≤ xs.getD j' 0
      · rw [if_pos hle] at h
        obtain rfl : 0 = j := by simpa using h
        refine ⟨by simp, ?_⟩
        intro y hy
        rcases List.mem_cons.mp hy with rfl | hy'
        · simp
        · simpa using le_trans hle (hmin y hy')
      · rw [if_neg hle] at h
        obtain rfl : j' + 1 = j := by simpa using h
        refine ⟨by simpa using hlen, ?_⟩
        intro y hy
        rcases List.mem_cons.mp hy with rfl | hy'
        · simpa using le_of_not_le hle
        · simpa using hmin y hy'

/-- The index returned by `np.argmax` is in range and indexes a maximal
value of the vector. -/
theorem argmaxList_spec :
    ∀ (v : List ℤ) (j : ℕ), argmaxList v = some j →
      j < v.length ∧ ∀ x ∈ v, x ≤ v.getD j 0 := by
  intro v
  induction v with
  | nil => intro j h; simp [argmaxList] at h
  | cons x xs ih =>
    intro j h
    simp only [argmaxList] at h
    cases hxs : argmaxList xs with
    | none =>
      rw [hxs] at h
      obtain rfl : 0 = j := by simpa using h
      have hnil : xs = [] := argmaxList_eq_none.mp hxs
      subst hnil
      refine ⟨by simp, ?_⟩
      intro y hy
      simp only [List.mem_singleton] at hy
      simp [hy]
    | some j' =>
      rw [hxs] at h
      change (if xs.getD j' 0 ≤ x then some 0 else some (j' + 1)) = some j at h
      obtain ⟨hlen, hmax⟩ := ih j' hxs
      by_cases hle : xs.getD j' 0 ≤ x
      · rw [if_pos hle] at h
        obtain rfl : 0 = j := by simpa using h
        refine ⟨by simp, ?_⟩
        intro y hy
        rcases List.mem_cons.mp hy with rfl | hy'
        · simp
        · simpa using le_trans (hmax y hy') hle
      · rw [if_neg hle] at h
        obtain rfl : j' + 1 = j := by simpa using h
        refine ⟨by simpa using hlen, ?_⟩
        intro y hy
        rcases List.mem_cons.mp hy with rfl | hy'
        · simpa using le_of_not_le hle
        · simpa using hmax y hy'

theorem getD_mem {l : List Pt} {j : ℕ} (h : j < l.length) (d : Pt) :
    l.getD j d ∈ l := by
  rw [List.getD_eq_getElem l d h]
  exact List.getElem_mem h

theorem getD_map {f : Pt → ℤ} {l : List Pt} {j : ℕ} (h : j < l.length) :
    (l.map f).getD j 0 = f (l.getD j default) := by
  rw [List.getD_eq_getElem (l.map f) 0 (by simpa using h),
    List.getD_eq_getElem l default h, List.getElem_map]

/-- If `p` is the unique minimizer of `f` over `l`, the element picked by
`np.argmin` of the mapped values is `p`. -/
theorem strictMinAt_getD {f : Pt → ℤ} {l : List Pt} {p : Pt}
    (hs : strictMinAt f l p) {j : ℕ} (hj : argminList (l.map f) = some j) :
    l.getD j default = p := by
  obtain ⟨hmem, hlt⟩ := hs
  obtain ⟨hjlen, hmin⟩ := argminList_spec _ _ hj
  rw [List.length_map] at hjlen
  have heMem : l.getD j default ∈ l := getD_mem hjlen _
  have hle : f (l.getD j default) ≤ f p := by
    have h1 : f p ∈ l.map f := List.mem_map_of_mem f hmem
    have h2 := hmin _ h1
    rwa [getD_map hjlen] at h2
  by_contra hne
  exact absurd hle (not_le.mpr (hlt _ heMem hne))

/-- If `p` is the unique maximizer of `f` over `l`, the element picked by
`np.argmax` of the mapped values is `p`. -/
theorem strictMaxAt_getD {f : Pt → ℤ} {l : List Pt} {p : Pt}
    (hs : strictMaxAt f l p) {j : ℕ} (hj : argmaxList (l.map f) = some j) :
    l.getD j default = p := by
  obtain ⟨hmem, hlt⟩ := hs
  obtain ⟨hjlen, hmax⟩ := argmaxList_spec _ _ hj
  rw [List.length_map] at hjlen
  have heMem : l.getD j default ∈ l := getD_mem hjlen _
  have hle : f p ≤ f (l.getD j default) := by
    have h1 : f p ∈ l.map f := List.mem_map_of_mem f hmem
    have h2 := hmax _ h1
    rwa [getD_map hjlen] at h2
  by_contra hne
  exact absurd hle (not_le.mpr (hlt _ heMem hne))

/-- `order_points` on any nonempty input returns the four extremal points:
a minimizer/maximizer of the row sum in slots 0/2 and a
minimizer/maximizer of `diffv = y - x` in slots 1/3, each taken from the
input. -/
theorem order_points_any_extremal (l : List Pt) (hne : l ≠ []) :
    ∃ r, order_points_any l = some r ∧
      (r.p0 ∈ l ∧ ∀ p ∈ l, sumv r.p0 ≤ sumv p) ∧
      (r.p2 ∈ l ∧ ∀ p ∈ l, sumv p ≤ sumv r.p2) ∧
      (r.p1 ∈ l ∧ ∀ p ∈ l, diffv r.p1 ≤ diffv p) ∧
      (r.p3 ∈ l ∧ ∀ p ∈ l, diffv p ≤ diffv r.p3) := by
  have hs : l.map sumv ≠ [] := by simpa using hne
  have hd : l.map diffv ≠ [] := by simpa using hne
  obtain ⟨i0, hi0⟩ := argminList_isSome hs
  obtain ⟨i2, hi2⟩ := argmaxList_isSome hs
  obtain ⟨i1, hi1⟩ := argminList_isSome hd
  obtain ⟨i3, hi3⟩ := argmaxList_isSome hd
  obtain ⟨hl0, hm0⟩ := argminList_spec _ _ hi0
  obtain ⟨hl2, hm2⟩ := argmaxList_spec _ _ hi2
  obtain ⟨hl1, hm1⟩ := argminList_spec _ _ hi1
  obtain ⟨hl3, hm3⟩ := argmaxList_spec _ _ hi3
  rw [List.length_map] at hl0 hl2 hl1 hl3
  refine ⟨⟨l.getD i0 default, l.getD i1 default, l.getD i2 default, l.getD i3 default⟩,
    ?_, ⟨getD_mem hl0 _, ?_⟩, ⟨getD_mem hl2 _, ?_⟩, ⟨getD_mem hl1 _, ?_⟩,
    ⟨getD_mem hl3 _, ?_⟩⟩
  · unfold order_points_any
    rw [hi0, hi2, hi1, hi3]
  · intro p hp
    have := hm0 _ (List.mem_map_of_mem sumv hp)
    rwa [getD_map hl0] at this
  · intro p hp
    have := hm2 _ (List.mem_map_of_mem sumv hp)
    rwa [getD_map hl2] at this
  · intro p hp
    have := hm1 _ (List.mem_map_of_mem diffv hp)
    rwa [getD_map hl1] at this
  · intro p hp
    have := hm3 _ (List.mem_map_of_mem diffv hp)
    rwa [getD_map hl3] at this

/-- When every extreme is attained by a unique point, `order_points_any`
returns exactly those four points. -/
theorem order_points_any_eq {l : List Pt} {ptl ptr pbr pbl : Pt}
    (h0 : strictMinAt sumv l ptl) (h2 : strictMaxAt sumv l pbr)
    (h1 : strictMinAt diffv l ptr) (h3 : strictMaxAt diffv l pbl) :
    order_points_any l = some ⟨ptl, ptr, pbr, pbl⟩ := by
  have hne : l ≠ [] := by
    intro h
    rw [h] at h0
    exact absurd h0.1 (List.not_mem_nil _)
  have hs : l.map sumv ≠ [] := by simpa using hne
  have hd : l.map diffv ≠ [] := by simpa using hne
  obtain ⟨i0, hi0⟩ := argminList_isSome hs
  obtain ⟨i2, hi2⟩ := argmaxList_isSome hs
  obtain ⟨i1, hi1⟩ := argminList_isSome hd
  obtain ⟨i3, hi3⟩ := argmaxList_isSome hd
  unfold order_points_any
  rw [hi0, hi2, hi1, hi3]
  show some (⟨l.getD i0 default, l.getD i1 default, l.getD i2 default,
      l.getD i3 default⟩ : Quad) = some ⟨ptl, ptr, pbr, pbl⟩
  rw [strictMinAt_getD h0 hi0, strictMaxAt_getD h2 hi2,
    strictMinAt_getD h1 hi1, strictMaxAt_getD h3 hi3]

theorem Quad.toList_ne_nil (q : Quad) : q.toList ≠ [] := by
  simp [Quad.toList]

/-- `order_points` on a quad whose extremes are uniquely attained. -/
theorem order_points_eq {q : Quad} {ptl ptr pbr pbl : Pt}
    (h0 : strictMinAt sumv q.toList ptl) (h2 : strictMaxAt sumv q.toList pbr)
    (h1 : strictMinAt diffv q.toList ptr) (h3 : strictMaxAt diffv q.toList pbl) :
    order_points q = ⟨ptl, ptr, pbr, pbl⟩ := by
  unfold order_points
  rw [order_points_any_eq h0 h2 h1 h3]
  rfl

/-- Strict extremality only depends on the multiset of points. -/
theorem strictMinAt_of_perm {f : Pt → ℤ} {l l' : List Pt} (hp : l.Perm l')
    {p : Pt} (h : strictMinAt f l p) : strictMinAt f l' p :=
  ⟨hp.mem_iff.mp h.1, fun q hq hne => h.2 q (hp.mem_iff.mpr hq) hne⟩

theorem strictMaxAt_of_perm {f : Pt → ℤ} {l l' : List Pt} (hp : l.Perm l')
    {p : Pt} (h : strictMaxAt f l p) : strictMaxAt f l' p :=
  ⟨hp.mem_iff.mp h.1, fun q hq hne => h.2 q (hp.mem_iff.mpr hq) hne⟩

/-- Truncated integer square roots are monotone. -/
theorem isqrtZ_mono {a b : ℤ} (h : a ≤ b) : isqrtZ a ≤ isqrtZ b := by
  unfold isqrtZ
  exact_mod_cast Nat.sqrt_le_sqrt (Int.toNat_le_toNat h)

/-- The larger of two truncated square roots is the truncated square root
of the larger radicand ("truncation of the max = max of truncations"). -/
theorem isqrtZ_max (a b : ℤ) : max (isqrtZ a) (isqrtZ b) = isqrtZ (max a b) := by
  rcases le_total a b with h | h
  · rw [max_eq_right h, max_eq_right (isqrtZ_mono h)]
  · rw [max_eq_left h, max_eq_left (isqrtZ_mono h)]

theorem sqdist_nonneg (a b : Pt) : 0 ≤ sqdist a b :=
  add_nonneg (sq_nonneg _) (sq_nonneg _)

/-- `isqrtZ n` is at least 1 exactly when `n` is (for nonnegative `n`,
radicands of edge lengths). -/
theorem one_le_isqrtZ_iff {n : ℤ} (hn : 0 ≤ n) : 1 ≤ isqrtZ n ↔ 1 ≤ n := by
  unfold isqrtZ
  constructor
  · intro h
    have h1 : 1 ≤ Nat.sqrt n.toNat := by exact_mod_cast h
    have h2 : 1 ≤ n.toNat := by
      by_contra hc
      push_neg at hc
      interval_cases hx : n.toNat
      simp_all
    omega
  · intro h
    have h1 : 1 ≤ n.toNat := by omega
    have := Nat.sqrt_le_sqrt h1
    simp only [Nat.sqrt_one] at this
    exact_mod_cast this

/-- `int(·)` agrees with the floor on nonnegative values. -/
theorem pyInt_of_nonneg {q : ℚ} (h : 0 ≤ q) : pyInt q = ⌊q⌋ :=
  if_neg (not_lt.mpr h)

theorem pyInt_nonneg {q : ℚ} (h : 0 ≤ q) : 0 ≤ pyInt q := by
  rw [pyInt_of_nonneg h]
  exact Int.floor_nonneg.mpr h

theorem pyInt_intCast (n : ℤ) : pyInt ((n : ℚ)) = n := by
  unfold pyInt
  split_ifs with hn
  · rw [← Int.cast_neg, Int.floor_intCast, neg_neg]
  · rw [Int.floor_intCast]

theorem pyInt_mono_of_nonneg {a b : ℚ} (ha : 0 ≤ a) (hab : a ≤ b) :
    pyInt a ≤ pyInt b := by
  rw [pyInt_of_nonneg ha, pyInt_of_nonneg (ha.trans hab)]
  exact Int.floor_le_floor hab

/-- Resizing both dimensions by the exact rational factor
`A / current_max` makes the largest result dimension exactly `A`:
`int(current_max * (A / current_max)) = A`, and the other axis scales to
something no larger. -/
theorem resized_max_dim (h w : ℕ) (A : ℤ) (hA : 0 ≤ A) (hpos : 0 < max h w) :
    ((max (pyInt ((h : ℚ) * ((A : ℚ) / ((max h w : ℕ) : ℚ)))).toNat
          (pyInt ((w : ℚ) * ((A : ℚ) / ((max h w : ℕ) : ℚ)))).toNat : ℕ) : ℤ) = A := by
  have hAq : (0 : ℚ) ≤ (A : ℚ) := by exact_mod_cast hA
  rcases le_total h w with hle | hle
  · have hmax : max h w = w := max_eq_right hle
    rw [hmax] at hpos ⊢
    have hw0 : w ≠ 0 := by omega
    have hwq : ((w : ℚ)) ≠ 0 := Nat.cast_ne_zero.mpr hw0
    have hs : (0 : ℚ) ≤ (A : ℚ) / (w : ℚ) := div_nonneg hAq (Nat.cast_nonneg w)
    have hpyw : pyInt ((w : ℚ) * ((A : ℚ) / (w : ℚ))) = A := by
      rw [mul_div_cancel₀ _ hwq, pyInt_intCast]
    have hmono : pyInt ((h : ℚ) * ((A : ℚ) / (w : ℚ))) ≤
        pyInt ((w : ℚ) * ((A : ℚ) / (w : ℚ))) :=
      pyInt_mono_of_nonneg (mul_nonneg (Nat.cast_nonneg h) hs)
        (mul_le_mul_of_nonneg_right (by exact_mod_cast hle) hs)
    have hm2 : pyInt ((h : ℚ) * ((A : ℚ) / (w : ℚ))) ≤ A := hmono.trans (le_of_eq hpyw)
    rw [hpyw, max_eq_right (Int.toNat_le_toNat hm2), Int.toNat_of_nonneg hA]
  · have hmax : max h w = h := max_eq_left hle
    rw [hmax] at hpos ⊢
    have hh0 : h ≠ 0 := by omega
    have hhq : ((h : ℚ)) ≠ 0 := Nat.cast_ne_zero.mpr hh0
    have hs : (0 : ℚ) ≤ (A : ℚ) / (h : ℚ) := div_nonneg hAq (Nat.cast_nonneg h)
    have hpyh : pyInt ((h : ℚ) * ((A : ℚ) / (h : ℚ))) = A := by
      rw [mul_div_cancel₀ _ hhq, pyInt_intCast]
    have hmono : pyInt ((w : ℚ) * ((A : ℚ) / (h : ℚ))) ≤
        pyInt ((h : ℚ) * ((A : ℚ) / (h : ℚ))) :=
      pyInt_mono_of_nonneg (mul_nonneg (Nat.cast_nonneg w) hs)
        (mul_le_mul_of_nonneg_right (by exact_mod_cast hle) hs)
    have hm2 : pyInt ((w : ℚ) * ((A : ℚ) / (h : ℚ))) ≤ A := hmono.trans (le_of_eq hpyh)
    rw [hpyh, max_eq_left (Int.toNat_le_toNat hm2), Int.toNat_of_nonneg hA]

/-- Concrete integer square root values used by the C3 witness
(`Nat.sqrt` does not reduce by kernel evaluation). -/
theorem isqrtZ_16 : isqrtZ 16 = 4 := by
  unfold isqrtZ
  rw [show (16 : ℤ).toNat = 16 from rfl, show (16 : ℕ) = 4 ^ 2 by norm_num,
    Nat.sqrt_eq']
  rfl

theorem isqrtZ_9 : isqrtZ 9 = 3 := by
  unfold isqrtZ
  rw [show (9 : ℤ).toNat = 9 from rfl, show (9 : ℕ) = 3 ^ 2 by norm_num,
    Nat.sqrt_eq']
  rfl

/-! ## Claim theorems -/

/-- C1 (counterexample): on the unit square, the unique input point with
minimum `x − y` is `(0, 1)`, yet the returned top-right slot holds
`(1, 0)` (the point with MAXIMUM `x − y`): the code's `np.diff` computes
`y − x`, so the spec's "top-right = minimum diff, bottom-left = maximum
diff" with `diff = x − y` is false, as the deviation from the
specification-literal `order_points_spec` shows. -/
theorem c1_diff_sign_counterexample :
    strictMinAt diffv_spec (Quad.toList ⟨⟨0, 0⟩, ⟨1, 0⟩, ⟨1, 1⟩, ⟨0, 1⟩⟩) ⟨0, 1⟩ ∧
    (order_points ⟨⟨0, 0⟩, ⟨1, 0⟩, ⟨1, 1⟩, ⟨0, 1⟩⟩).p1 = ⟨1, 0⟩ ∧
    order_points ⟨⟨0, 0⟩, ⟨1, 0⟩, ⟨1, 1⟩, ⟨0, 1⟩⟩ ≠
      order_points_spec ⟨⟨0, 0⟩, ⟨1, 0⟩, ⟨1, 1⟩, ⟨0, 1⟩⟩ := by
  decide

/-- C1 (amended): `order_points` labels the four input points by
`sum = x + y` and `diff = x − y`: top-left attains the minimum sum,
bottom-right the maximum sum, top-right the MAXIMUM diff and bottom-left
the MINIMUM diff (the code computes `np.diff = y − x` and takes its
argmin/argmax), each returned point being one of the inputs. -/
theorem c1_order_points_labels (q : Quad) :
    ((order_points q).p0 ∈ q.toList ∧ ∀ p ∈ q.toList, sumv (order_points q).p0 ≤ sumv p) ∧
    ((order_points q).p2 ∈ q.toList ∧ ∀ p ∈ q.toList, sumv p ≤ sumv (order_points q).p2) ∧
    ((order_points q).p1 ∈ q.toList ∧
      ∀ p ∈ q.toList, diffv_spec p ≤ diffv_spec (order_points q).p1) ∧
    ((order_points q).p3 ∈ q.toList ∧
      ∀ p ∈ q.toList, diffv_spec (order_points q).p3 ≤ diffv_spec p) := by
  obtain ⟨r, hr, H0, H2, H1, H3⟩ := order_points_any_extremal q.toList q.toList_ne_nil
  have hq : order_points q = r := by
    unfold order_points
    rw [hr]
    rfl
  rw [hq]
  refine ⟨H0, H2, ⟨H1.1, ?_⟩, ⟨H3.1, ?_⟩⟩
  · intro p hp
    have hd := H1.2 p hp
    unfold diffv at hd
    unfold diffv_spec
    omega
  · intro p hp
    have hd := H3.2 p hp
    unfold diffv at hd
    unfold diffv_spec
    omega

/-- C1 witness: the labels on a concrete general-position quadrilateral. -/
theorem c1_labels_witness :
    ((order_points ⟨⟨1, 6⟩, ⟨0, 0⟩, ⟨7, 1⟩, ⟨5, 5⟩⟩).p0 ∈
        (⟨⟨1, 6⟩, ⟨0, 0⟩, ⟨7, 1⟩, ⟨5, 5⟩⟩ : Quad).toList ∧
      ∀ p ∈ (⟨⟨1, 6⟩, ⟨0, 0⟩, ⟨7, 1⟩, ⟨5, 5⟩⟩ : Quad).toList,
        sumv (order_points ⟨⟨1, 6⟩, ⟨0, 0⟩, ⟨7, 1⟩, ⟨5, 5⟩⟩).p0 ≤ sumv p) ∧
    ((order_points ⟨⟨1, 6⟩, ⟨0, 0⟩, ⟨7, 1⟩, ⟨5, 5⟩⟩).p2 ∈
        (⟨⟨1, 6⟩, ⟨0, 0⟩, ⟨7, 1⟩, ⟨5, 5⟩⟩ : Quad).toList ∧
      ∀ p ∈ (⟨⟨1, 6⟩, ⟨0, 0⟩, ⟨7, 1⟩, ⟨5, 5⟩⟩ : Quad).toList,
        sumv p ≤ sumv (order_points ⟨⟨1, 6⟩, ⟨0, 0⟩, ⟨7, 1⟩, ⟨5, 5⟩⟩).p2) ∧
    ((order_points ⟨⟨1, 6⟩, ⟨0, 0⟩, ⟨7, 1⟩, ⟨5, 5⟩⟩).p1 ∈
        (⟨⟨1, 6⟩, ⟨0, 0⟩, ⟨7, 1⟩, ⟨5, 5⟩⟩ : Quad).toList ∧
      ∀ p ∈ (⟨⟨1, 6⟩, ⟨0, 0⟩, ⟨7, 1⟩, ⟨5, 5⟩⟩ : Quad).toList,
        diffv_spec p ≤ diffv_spec (order_points ⟨⟨1, 6⟩, ⟨0, 0⟩, ⟨7, 1⟩, ⟨5, 5⟩⟩).p1) ∧
    ((order_points ⟨⟨1, 6⟩, ⟨0, 0⟩, ⟨7, 1⟩, ⟨5, 5⟩⟩).p3 ∈
        (⟨⟨1, 6⟩, ⟨0, 0⟩, ⟨7, 1⟩, ⟨5, 5⟩⟩ : Quad).toList ∧
      ∀ p ∈ (⟨⟨1, 6⟩, ⟨0, 0⟩, ⟨7, 1⟩, ⟨5, 5⟩⟩ : Quad).toList,
        diffv_spec (order_points ⟨⟨1, 6⟩, ⟨0, 0⟩, ⟨7, 1⟩, ⟨5, 5⟩⟩).p3 ≤ diffv_spec p) :=
  c1_order_points_labels ⟨⟨1, 6⟩, ⟨0, 0⟩, ⟨7, 1⟩, ⟨5, 5⟩⟩

/-- C2 (counterexample): four coincident corners make `four_point_transform`
compute `max_width = max_height = 0`, so `warp_perspective` computes the
output size `w = int(-1.0) + 1 = 0`, `h = 0`: the claimed `≥ 1 × 1`
guarantee fails for a collapsed CornerSet. -/
theorem c2_degenerate_counterexample :
    warp_output_size ⟨⟨5, 5⟩, ⟨5, 5⟩, ⟨5, 5⟩, ⟨5, 5⟩⟩ = (0, 0) ∧
    ¬ (1 ≤ (warp_output_size ⟨⟨5, 5⟩, ⟨5, 5⟩, ⟨5, 5⟩, ⟨5, 5⟩⟩).1 ∧
       1 ≤ (warp_output_size ⟨⟨5, 5⟩, ⟨5, 5⟩, ⟨5, 5⟩, ⟨5, 5⟩⟩).2) := by
  decide

/-- C2 (amended): the computed warp output width (resp. height) is at
least 1 exactly when one of the two corresponding edges of the ordered
quad has squared length at least 1; a CornerSet collapsed below that
(e.g. four coincident points) yields a computed `0 × 0` output size, so
the `≥ 1 × 1` guarantee holds only away from such degeneracy. -/
theorem c2_warp_size_iff (q : Quad) :
    (1 ≤ (warp_output_size q).1 ↔
      1 ≤ max (sqdist (order_points q).p2 (order_points q).p3)
              (sqdist (order_points q).p1 (order_points q).p0)) ∧
    (1 ≤ (warp_output_size q).2 ↔
      1 ≤ max (sqdist (order_points q).p1 (order_points q).p2)
              (sqdist (order_points q).p0 (order_points q).p3)) := by
  have hw : (warp_output_size q).1 =
      isqrtZ (max (sqdist (order_points q).p2 (order_points q).p3)
                  (sqdist (order_points q).p1 (order_points q).p0)) := by
    simp only [warp_output_size, four_point_transform]
    rw [sub_add_cancel, isqrtZ_max]
  have hh : (warp_output_size q).2 =
      isqrtZ (max (sqdist (order_points q).p1 (order_points q).p2)
                  (sqdist (order_points q).p0 (order_points q).p3)) := by
    simp only [warp_output_size, four_point_transform]
    rw [sub_add_cancel, isqrtZ_max]
  constructor
  · rw [hw]
    exact one_le_isqrtZ_iff (le_trans (sqdist_nonneg _ _) (le_max_left _ _))
  · rw [hh]
    exact one_le_isqrtZ_iff (le_trans (sqdist_nonneg _ _) (le_max_left _ _))

/-- C2 witness: the size iff evaluated on a concrete unit square. -/
theorem c2_witness :
    (1 ≤ (warp_output_size ⟨⟨0, 0⟩, ⟨2, 0⟩, ⟨2, 2⟩, ⟨0, 2⟩⟩).1 ↔
      1 ≤ max (sqdist (order_points ⟨⟨0, 0⟩, ⟨2, 0⟩, ⟨2, 2⟩, ⟨0, 2⟩⟩).p2
                      (order_points ⟨⟨0, 0⟩, ⟨2, 0⟩, ⟨2, 2⟩, ⟨0, 2⟩⟩).p3)
              (sqdist (order_points ⟨⟨0, 0⟩, ⟨2, 0⟩, ⟨2, 2⟩, ⟨0, 2⟩⟩).p1
                      (order_points ⟨⟨0, 0⟩, ⟨2, 0⟩, ⟨2, 2⟩, ⟨0, 2⟩⟩).p0)) ∧
    (1 ≤ (warp_output_size ⟨⟨0, 0⟩, ⟨2, 0⟩, ⟨2, 2⟩, ⟨0, 2⟩⟩).2 ↔
      1 ≤ max (sqdist (order_points ⟨⟨0, 0⟩, ⟨2, 0⟩, ⟨2, 2⟩, ⟨0, 2⟩⟩).p1
                      (order_points ⟨⟨0, 0⟩, ⟨2, 0⟩, ⟨2, 2⟩, ⟨0, 2⟩⟩).p2)
              (sqdist (order_points ⟨⟨0, 0⟩, ⟨2, 0⟩, ⟨2, 2⟩, ⟨0, 2⟩⟩).p0
                      (order_points ⟨⟨0, 0⟩, ⟨2, 0⟩, ⟨2, 2⟩, ⟨0, 2⟩⟩).p3)) :=
  c2_warp_size_iff ⟨⟨0, 0⟩, ⟨2, 0⟩, ⟨2, 2⟩, ⟨0, 2⟩⟩

/-- C6 (counterexample): `order_points` performs no point-count
validation: an input of FIVE points silently returns a result (built from
the extremal five points) instead of signalling an `InvalidInputError` —
no such error class even exists in the repository. -/
theorem c6_five_points_counterexample :
    ([⟨0, 0⟩, ⟨1, 0⟩, ⟨2, 0⟩, ⟨3, 0⟩, ⟨4, 1⟩] : List Pt).length ≠ 4 ∧
    order_points_any [⟨0, 0⟩, ⟨1, 0⟩, ⟨2, 0⟩, ⟨3, 0⟩, ⟨4, 1⟩] =
      some ⟨⟨0, 0⟩, ⟨3, 0⟩, ⟨4, 1⟩, ⟨0, 0⟩⟩ := by
  decide

/-- C6 (amended): `order_points` never validates its input length: every
nonempty point list (of any length) produces a result without raising;
only the empty list fails (numpy's `argmin` raises `ValueError`, not an
`InvalidInputError`). -/
theorem c6_no_length_validation :
    (∀ l : List Pt, l ≠ [] → ∃ q, order_points_any l = some q) ∧
    order_points_any ([] : List Pt) = none := by
  refine ⟨?_, rfl⟩
  intro l hl
  obtain ⟨r, hr, -, -, -, -⟩ := order_points_any_extremal l hl
  exact ⟨r, hr⟩

/-- C6 witness: a three-point input also returns a result. -/
theorem c6_witness : ∃ q, order_points_any [⟨0, 0⟩, ⟨1, 0⟩, ⟨0, 1⟩] = some q :=
  c6_no_length_validation.1 [⟨0, 0⟩, ⟨1, 0⟩, ⟨0, 1⟩] (by decide)

/-- C8 (counterexample): idempotence fails on a degenerate input: for the
quad `(0,0), (2,2), (4,0), (0,4)` (third point on the hull edge, so the
sum maximum is tied), `order_points` of its own output differs from the
output — the first-occurrence tie-breaking of `argmax` picks a different
point the second time. -/
theorem c8_idempotence_counterexample :
    order_points (order_points ⟨⟨0, 0⟩, ⟨2, 2⟩, ⟨4, 0⟩, ⟨0, 4⟩⟩) ≠
      order_points ⟨⟨0, 0⟩, ⟨2, 2⟩, ⟨4, 0⟩, ⟨0, 4⟩⟩ := by
  decide

/-- C8 (amended): when the four extremes (min/max of `x + y`, min/max of
`y − x`) are each attained by a unique point — true of valid convex
quadrilaterals in general position — `order_points` is idempotent and all
`4! = 24` input permutations produce the identical output. -/
theorem c8_idempotent_perm_invariant (q q' : Quad) (ptl ptr pbr pbl : Pt)
    (h0 : strictMinAt sumv q.toList ptl) (h2 : strictMaxAt sumv q.toList pbr)
    (h1 : strictMinAt diffv q.toList ptr) (h3 : strictMaxAt diffv q.toList pbl)
    (hperm : q'.toList.Perm q.toList) :
    order_points (order_points q) = order_points q ∧
    order_points q' = order_points q := by
  have hq : order_points q = ⟨ptl, ptr, pbr, pbl⟩ := order_points_eq h0 h2 h1 h3
  have hsub : ∀ r ∈ (⟨ptl, ptr, pbr, pbl⟩ : Quad).toList, r ∈ q.toList := by
    intro r hr
    simp only [Quad.toList, List.mem_cons, List.not_mem_nil, or_false] at hr
    rcases hr with rfl | rfl | rfl | rfl
    exacts [h0.1, h1.1, h2.1, h3.1]
  have h0' : strictMinAt sumv (⟨ptl, ptr, pbr, pbl⟩ : Quad).toList ptl :=
    ⟨by simp [Quad.toList], fun r hr hne => h0.2 r (hsub r hr) hne⟩
  have h2' : strictMaxAt sumv (⟨ptl, ptr, pbr, pbl⟩ : Quad).toList pbr :=
    ⟨by simp [Quad.toList], fun r hr hne => h2.2 r (hsub r hr) hne⟩
  have h1' : strictMinAt diffv (⟨ptl, ptr, pbr, pbl⟩ : Quad).toList ptr :=
    ⟨by simp [Quad.toList], fun r hr hne => h1.2 r (hsub r hr) hne⟩
  have h3' : strictMaxAt diffv (⟨ptl, ptr, pbr, pbl⟩ : Quad).toList pbl :=
    ⟨by simp [Quad.toList], fun r hr hne => h3.2 r (hsub r hr) hne⟩
  constructor
  · rw [hq]
    rw [order_points_eq h0' h2' h1' h3']
  · rw [hq, order_points_eq (strictMinAt_of_perm hperm.symm h0)
      (strictMaxAt_of_perm hperm.symm h2) (strictMinAt_of_perm hperm.symm h1)
      (strictMaxAt_of_perm hperm.symm h3)]

/-- C8 witness: idempotence and permutation invariance on a concrete
convex quadrilateral and one of its permutations. -/
theorem c8_witness :
    order_points (order_points ⟨⟨0, 0⟩, ⟨4, 0⟩, ⟨5, 5⟩, ⟨0, 4⟩⟩) =
      order_points ⟨⟨0, 0⟩, ⟨4, 0⟩, ⟨5, 5⟩, ⟨0, 4⟩⟩ ∧
    order_points ⟨⟨5, 5⟩, ⟨0, 4⟩, ⟨0, 0⟩, ⟨4, 0⟩⟩ =
      order_points ⟨⟨0, 0⟩, ⟨4, 0⟩, ⟨5, 5⟩, ⟨0, 4⟩⟩ :=
  c8_idempotent_perm_invariant ⟨⟨0, 0⟩, ⟨4, 0⟩, ⟨5, 5⟩, ⟨0, 4⟩⟩
    ⟨⟨5, 5⟩, ⟨0, 4⟩, ⟨0, 0⟩, ⟨4, 0⟩⟩ ⟨0, 0⟩ ⟨4, 0⟩ ⟨5, 5⟩ ⟨0, 4⟩
    (by decide) (by decide) (by decide) (by decide) (by decide)

/-- C10: every returned corner is one of the input points, but the output
need not be a permutation of the input: on the collinear input
`(0,0), (1,1), (2,2), (3,3)` the point `(0,0)` occupies three output
slots and `(1,1)` is absent from the output. -/
theorem c10_membership_not_perm :
    (∀ q : Quad, (order_points q).p0 ∈ q.toList ∧ (order_points q).p1 ∈ q.toList ∧
        (order_points q).p2 ∈ q.toList ∧ (order_points q).p3 ∈ q.toList) ∧
    (order_points ⟨⟨0, 0⟩, ⟨1, 1⟩, ⟨2, 2⟩, ⟨3, 3⟩⟩ = ⟨⟨0, 0⟩, ⟨0, 0⟩, ⟨3, 3⟩, ⟨0, 0⟩⟩ ∧
     (⟨1, 1⟩ : Pt) ∈ (⟨⟨0, 0⟩, ⟨1, 1⟩, ⟨2, 2⟩, ⟨3, 3⟩⟩ : Quad).toList ∧
     (⟨1, 1⟩ : Pt) ∉ (order_points ⟨⟨0, 0⟩, ⟨1, 1⟩, ⟨2, 2⟩, ⟨3, 3⟩⟩).toList) := by
  constructor
  · intro q
    obtain ⟨r, hr, H0, H2, H1, H3⟩ := order_points_any_extremal q.toList q.toList_ne_nil
    have hq : order_points q = r := by
      unfold order_points
      rw [hr]
      rfl
    rw [hq]
    exact ⟨H0.1, H1.1, H2.1, H3.1⟩
  · decide

/-- C3: for corners whose four extremes are uniquely attained (the
ordering heuristic's domain of validity), the warp output width is the
integer truncation of `max(|br − bl|, |tr − tl|)` and the height the
truncation of `max(|tr − br|, |tl − bl|)` over the canonically ordered
corners `tl, tr, br, bl` — expressed via squared lengths, since
`trunc (max (√a) (√b)) = isqrtZ (max a b)` — and the result is invariant
under permutation of the supplied corners. -/
theorem c3_warp_dims (q q' : Quad) (ptl ptr pbr pbl : Pt)
    (h0 : strictMinAt sumv q.toList ptl) (h2 : strictMaxAt sumv q.toList pbr)
    (h1 : strictMinAt diffv q.toList ptr) (h3 : strictMaxAt diffv q.toList pbl)
    (hperm : q'.toList.Perm q.toList) :
    warp_output_size q = (isqrtZ (max (sqdist pbr pbl) (sqdist ptr ptl)),
                          isqrtZ (max (sqdist ptr pbr) (sqdist ptl pbl))) ∧
    warp_output_size q' = warp_output_size q := by
  have key : ∀ r : Quad, order_points r = ⟨ptl, ptr, pbr, pbl⟩ →
      warp_output_size r = (isqrtZ (max (sqdist pbr pbl) (sqdist ptr ptl)),
        isqrtZ (max (sqdist ptr pbr) (sqdist ptl pbl))) := by
    intro r hr
    simp only [warp_output_size, four_point_transform, hr]
    rw [sub_add_cancel, sub_add_cancel, isqrtZ_max, isqrtZ_max]
  have hq : order_points q = ⟨ptl, ptr, pbr, pbl⟩ := order_points_eq h0 h2 h1 h3
  have hq' : order_points q' = ⟨ptl, ptr, pbr, pbl⟩ :=
    order_points_eq (strictMinAt_of_perm hperm.symm h0)
      (strictMaxAt_of_perm hperm.symm h2) (strictMinAt_of_perm hperm.symm h1)
      (strictMaxAt_of_perm hperm.symm h3)
  exact ⟨key q hq, (key q' hq').trans (key q hq).symm⟩

/-- C3 witness: a 4 × 3 rectangle given in a scrambled corner order. -/
theorem c3_witness :
    warp_output_size ⟨⟨0, 0⟩, ⟨4, 0⟩, ⟨4, 3⟩, ⟨0, 3⟩⟩ = (4, 3) ∧
    warp_output_size ⟨⟨4, 3⟩, ⟨0, 0⟩, ⟨0, 3⟩, ⟨4, 0⟩⟩ =
      warp_output_size ⟨⟨0, 0⟩, ⟨4, 0⟩, ⟨4, 3⟩, ⟨0, 3⟩⟩ := by
  have h := c3_warp_dims ⟨⟨0, 0⟩, ⟨4, 0⟩, ⟨4, 3⟩, ⟨0, 3⟩⟩ ⟨⟨4, 3⟩, ⟨0, 0⟩, ⟨0, 3⟩, ⟨4, 0⟩⟩
    ⟨0, 0⟩ ⟨4, 0⟩ ⟨4, 3⟩ ⟨0, 3⟩ (by decide) (by decide) (by decide) (by decide) (by decide)
  refine ⟨?_, h.2⟩
  rw [h.1]
  have e1 : sqdist ⟨4, 3⟩ ⟨0, 3⟩ = 16 := by decide
  have e2 : sqdist ⟨4, 0⟩ ⟨0, 0⟩ = 16 := by decide
  have e3 : sqdist ⟨4, 0⟩ ⟨4, 3⟩ = 9 := by decide
  have e4 : sqdist ⟨0, 0⟩ ⟨0, 3⟩ = 9 := by decide
  rw [e1, e2, e3, e4, max_self, max_self, isqrtZ_16, isqrtZ_9]

/-- C4: `clamp_size` with reference `ref`: when the largest current
dimension exceeds `int(ref * maxScaleFactor)` the result is a resize
(area interpolation) whose largest dimension is exactly that bound; when
it is below `int(ref * minScaleFactor)` the result is a resize (cubic
interpolation) whose largest dimension is exactly that lower bound;
otherwise the very same image is returned unchanged. -/
theorem c4_clamp_size (h w ref : ℕ) (maxF minF : ℚ)
    (hpos : 0 < max h w) (hmaxF : 0 ≤ maxF) (hminF : 0 ≤ minF) :
    (pyInt ((ref : ℚ) * maxF) < ((max h w : ℕ) : ℤ) →
      ∃ nh nw, clamp_size h w ref maxF minF = .resized nh nw false ∧
        ((max nh nw : ℕ) : ℤ) = pyInt ((ref : ℚ) * maxF)) ∧
    (¬ pyInt ((ref : ℚ) * maxF) < ((max h w : ℕ) : ℤ) →
      ((max h w : ℕ) : ℤ) < pyInt ((ref : ℚ) * minF) →
      ∃ nh nw, clamp_size h w ref maxF minF = .resized nh nw true ∧
        ((max nh nw : ℕ) : ℤ) = pyInt ((ref : ℚ) * minF)) ∧
    (¬ pyInt ((ref : ℚ) * maxF) < ((max h w : ℕ) : ℤ) →
      ¬ ((max h w : ℕ) : ℤ) < pyInt ((ref : ℚ) * minF) →
      clamp_size h w ref maxF minF = .unchanged) := by
  have hA : 0 ≤ pyInt ((ref : ℚ) * maxF) :=
    pyInt_nonneg (mul_nonneg (Nat.cast_nonneg ref) hmaxF)
  have hB : 0 ≤ pyInt ((ref : ℚ) * minF) :=
    pyInt_nonneg (mul_nonneg (Nat.cast_nonneg ref) hminF)
  refine ⟨?_, ?_, ?_⟩
  · intro hcond
    have heq : clamp_size h w ref maxF minF = ClampResult.resized
        (pyInt ((h : ℚ) * ((pyInt ((ref : ℚ) * maxF) : ℚ) / ((max h w : ℕ) : ℚ)))).toNat
        (pyInt ((w : ℚ) * ((pyInt ((ref : ℚ) * maxF) : ℚ) / ((max h w : ℕ) : ℚ)))).toNat
        false := by
      simp only [clamp_size]
      rw [if_pos hcond]
    exact ⟨_, _, heq, resized_max_dim h w _ hA hpos⟩
  · intro hc1 hc2
    have heq : clamp_size h w ref maxF minF = ClampResult.resized
        (pyInt ((h : ℚ) * ((pyInt ((ref : ℚ) * minF) : ℚ) / ((max h w : ℕ) : ℚ)))).toNat
        (pyInt ((w : ℚ) * ((pyInt ((ref : ℚ) * minF) : ℚ) / ((max h w : ℕ) : ℚ)))).toNat
        true := by
      simp only [clamp_size]
      rw [if_neg hc1, if_pos hc2]
    exact ⟨_, _, heq, resized_max_dim h w _ hB hpos⟩
  · intro hc1 hc2
    simp only [clamp_size]
    rw [if_neg hc1, if_neg hc2]

/-- C4 witness: the specification's three concrete cases with
`ref = 1000`, `maxScaleFactor = 1.25`, `minScaleFactor = 0.75`:
a `1500 × 1000` image is downscaled to largest dimension exactly 1250, a
`500 × 300` image is upscaled to exactly 750, and a `1000 × 800` image is
unchanged. -/
theorem c4_witness :
    (∃ nh nw, clamp_size 1500 1000 1000 (5 / 4) (3 / 4) = .resized nh nw false ∧
      ((max nh nw : ℕ) : ℤ) = pyInt (((1000 : ℕ) : ℚ) * (5 / 4))) ∧
    (∃ nh nw, clamp_size 500 300 1000 (5 / 4) (3 / 4) = .resized nh nw true ∧
      ((max nh nw : ℕ) : ℤ) = pyInt (((1000 : ℕ) : ℚ) * (3 / 4))) ∧
    clamp_size 1000 800 1000 (5 / 4) (3 / 4) = .unchanged := by
  have e1 : pyInt (((1000 : ℕ) : ℚ) * (5 / 4)) = 1250 := by
    rw [show ((1000 : ℕ) : ℚ) * (5 / 4) = ((1250 : ℤ) : ℚ) by norm_num, pyInt_intCast]
  have e2 : pyInt (((1000 : ℕ) : ℚ) * (3 / 4)) = 750 := by
    rw [show ((1000 : ℕ) : ℚ) * (3 / 4) = ((750 : ℤ) : ℚ) by norm_num, pyInt_intCast]
  refine ⟨(c4_clamp_size 1500 1000 1000 (5 / 4) (3 / 4) (by norm_num) (by norm_num)
      (by norm_num)).1 ?_,
    (c4_clamp_size 500 300 1000 (5 / 4) (3 / 4) (by norm_num) (by norm_num)
      (by norm_num)).2.1 ?_ ?_,
    (c4_clamp_size 1000 800 1000 (5 / 4) (3 / 4) (by norm_num) (by norm_num)
      (by norm_num)).2.2 ?_ ?_⟩
  · rw [e1]
    norm_num
  · rw [e1]
    norm_num
  · rw [e2]
    norm_num
  · rw [e1]
    norm_num
  · rw [e2]
    norm_num

/-- C5: whenever no contour candidate qualifies (each one is below the
area threshold or its simplified polygon does not have exactly four
vertices), `auto_detect_corners` returns the full-image corner sentinel
`(0,0), (w−1,0), (w−1,h−1), (0,h−1)` together with `success = false`, and
does not throw. -/
theorem c5_detect_fallback (h w : ℕ) (frac : ℚ) (sh sw : ℕ) (cands : List Cand)
    (hall : ∀ c ∈ cands, c.area < frac * (sh : ℚ) * (sw : ℚ) ∨ c.approx.length ≠ 4) :
    auto_detect_corners h w frac sh sw cands =
      (⟨⟨0, 0⟩, ⟨(w : ℤ) - 1, 0⟩, ⟨(w : ℤ) - 1, (h : ℤ) - 1⟩, ⟨0, (h : ℤ) - 1⟩⟩, false) := by
  have hloop : ∀ l : List Cand,
      (∀ c ∈ l, c.area < frac * (sh : ℚ) * (sw : ℚ) ∨ c.approx.length ≠ 4) →
      detect_loop (frac * (sh : ℚ) * (sw : ℚ)) l = none := by
    intro l
    induction l with
    | nil => intro _; rfl
    | cons c rest ih =>
      intro hl
      have hrest := ih fun d hd => hl d (List.mem_cons_of_mem _ hd)
      by_cases hlt : c.area < frac * (sh : ℚ) * (sw : ℚ)
      · simp [detect_loop, if_pos hlt, hrest]
      · rcases hl c (List.mem_cons_self _ _) with hlt' | hlen
        · exact absurd hlt' hlt
        · have hqn : quadOfList c.approx = none := by simp [quadOfList, hlen]
          simp [detect_loop, if_neg hlt, hqn, hrest]
  unfold auto_detect_corners
  rw [hloop cands hall]

/-- C5 witness: one undersized candidate forces the sentinel corners of a
`20 × 30` image. -/
theorem c5_witness :
    auto_detect_corners 20 30 (1 / 10) 10 10 [⟨5, [⟨0, 0⟩]⟩] =
      (⟨⟨0, 0⟩, ⟨(30 : ℤ) - 1, 0⟩, ⟨(30 : ℤ) - 1, (20 : ℤ) - 1⟩, ⟨0, (20 : ℤ) - 1⟩⟩, false) :=
  c5_detect_fallback 20 30 (1 / 10) 10 10 [⟨5, [⟨0, 0⟩]⟩] (by
    intro c hc
    rw [List.mem_singleton] at hc
    subst hc
    left
    norm_num)

/-- C7: `full_pipeline` with denoise, CLAHE, sharpen and the size clamp
all disabled is byte-exactly `warp_perspective` alone: every disabled
stage is a strict skip, for any image, corner set, reference dimension
and stage parameters. -/
theorem c7_pipeline_identity {α : Type} (ops : ImageOps α) (img : α) (pts : Quad)
    (denoise_strength clahe_clip sharpen_amount : ℚ) (ref_max_dim : Option ℕ)
    (max_scale_factor min_scale_factor : ℚ) :
    full_pipeline ops img pts false denoise_strength false clahe_clip
      false sharpen_amount false ref_max_dim max_scale_factor min_scale_factor =
    ops.warp_perspective img pts := rfl

/-- C7 witness: the identity at a concrete operations record over `ℕ`. -/
theorem c7_witness :
    full_pipeline ⟨fun n _ => n + 7, fun n _ => n * 2, fun n _ => n * 3,
        fun n _ => n * 5, fun n _ _ _ => n * 11, fun n => n⟩ 1 default
      false 10 false 2 false (9 / 5) false none (5 / 4) (3 / 4) =
    ImageOps.warp_perspective ⟨fun n _ => n + 7, fun n _ => n * 2, fun n _ => n * 3,
        fun n _ => n * 5, fun n _ _ _ => n * 11, fun n => n⟩ 1 default :=
  c7_pipeline_identity ⟨fun n _ => n + 7, fun n _ => n * 2, fun n _ => n * 3,
    fun n _ => n * 5, fun n _ _ _ => n * 11, fun n => n⟩ 1 default 10 2 (9 / 5) none
    (5 / 4) (3 / 4)

/-- C9: `apply_sharpen` with `amount = 1` is the identity: the combination
`amount·original + (1−amount)·blurred`, rounded, saturated to `[0, 255]`,
returns every pixel of the original unchanged, whatever the blur does. -/
theorem c9_sharpen_amount_one {I : Type}
    (gaussian_blur : (I → Fin 256) → ℚ → (I → Fin 256))
    (img : I → Fin 256) (sigma : ℚ) :
    apply_sharpen gaussian_blur img 1 sigma = img := by
  funext i
  simp only [apply_sharpen, addWeighted]
  have harg : (1 : ℚ) * ((img i : ℕ) : ℚ) +
      (1 - 1) * ((gaussian_blur img sigma i : ℕ) : ℚ) + 0 = ((img i : ℕ) : ℚ) := by
    ring
  rw [harg]
  refine Fin.eq_of_val_eq ?_
  show (min (max (round ((img i : ℕ) : ℚ)) 0) 255).toNat = (img i : ℕ)
  rw [round_natCast]
  have hlt : ((img i : ℕ)) < 256 := (img i).isLt
  omega

/-- C9 witness: sharpening a concrete one-pixel image with amount 1 under
a concrete (constant) blur. -/
theorem c9_witness :
    apply_sharpen (fun _ _ => fun _ => (200 : Fin 256))
      (fun _ : Fin 1 => (7 : Fin 256)) 1 5 = fun _ => (7 : Fin 256) :=
  c9_sharpen_amount_one (fun _ _ => fun _ => (200 : Fin 256))
    (fun _ : Fin 1 => (7 : Fin 256)) 5

/-- C10 witness: output membership on a concrete quad. -/
theorem c10_witness :
    (order_points ⟨⟨7, 1⟩, ⟨0, 0⟩, ⟨5, 5⟩, ⟨1, 6⟩⟩).p0 ∈
        (⟨⟨7, 1⟩, ⟨0, 0⟩, ⟨5, 5⟩, ⟨1, 6⟩⟩ : Quad).toList ∧
    (order_points ⟨⟨7, 1⟩, ⟨0, 0⟩, ⟨5, 5⟩, ⟨1, 6⟩⟩).p1 ∈
        (⟨⟨7, 1⟩, ⟨0, 0⟩, ⟨5, 5⟩, ⟨1, 6⟩⟩ : Quad).toList ∧
    (order_points ⟨⟨7, 1⟩, ⟨0, 0⟩, ⟨5, 5⟩, ⟨1, 6⟩⟩).p2 ∈
        (⟨⟨7, 1⟩, ⟨0, 0⟩, ⟨5, 5⟩, ⟨1, 6⟩⟩ : Quad).toList ∧
    (order_points ⟨⟨7, 1⟩, ⟨0, 0⟩, ⟨5, 5⟩, ⟨1, 6⟩⟩).p3 ∈
        (⟨⟨7, 1⟩, ⟨0, 0⟩, ⟨5, 5⟩, ⟨1, 6⟩⟩ : Quad).toList :=
  c10_membership_not_perm.1 ⟨⟨7, 1⟩, ⟨0, 0⟩, ⟨5, 5⟩, ⟨1, 6⟩⟩

end Rectif
